import Mathlib

/-!
Verification of the `pulse` trie container (`src/dsa/trie.h`).

The C++ `Trie<K, V>` stores an owning tree of `Node`s, where each `Node` has
an `std::optional<V> value` and an `std::map<E, std::unique_ptr<Node>> children`
(symbols `E` sorted by the natural order, unique keys).  We embed a node as a
mutual inductive: `Node` carries the optional value and a `Children`
association list kept in strictly increasing key order (the `std::map`
invariant, expressed by the `wfN`/`wfC` predicates below).  Every public
operation of the C++ class is translated function-by-function; the tree
renderer `to_string` is translated with its line buffer and open-branch stack
made explicit state.
-/

set_option autoImplicit false

namespace pulse

mutual

/-- A trie node: `std::optional<V> value; std::map<E, std::unique_ptr<Node>> children;`. -/
inductive Node (E V : Type) where
  | mk (value : Option V) (children : Children E V)

/-- The children map of a node, as an association list ordered by symbol
(the `std::map` iteration order). -/
inductive Children (E V : Type) where
  | nil
  | cons (sym : E) (child : Node E V) (rest : Children E V)

end

variable {E V : Type}

/-- The `value` field of a node. -/
def Node.value : Node E V → Option V
  | .mk v _ => v

/-- The `children` field of a node. -/
def Node.children : Node E V → Children E V
  | .mk _ ch => ch

/-- Whether a children map is empty (`children.empty()`). -/
def Children.isNil : Children E V → Bool
  | .nil => true
  | .cons _ _ _ => false

/-- A fresh node, as built by `std::make_unique<Node>()`: no value, no children. -/
def emptyNode : Node E V := .mk none .nil

/-- `children.find(c)`: the child reached by symbol `c`, if any. -/
def findChild [DecidableEq E] : Children E V → E → Option (Node E V)
  | .nil, _ => none
  | .cons c' n rest, c => if c' = c then some n else findChild rest c

/-- `children[c] = n`: store `n` under symbol `c`, inserting at the sorted
position if `c` is absent (the `std::map` insertion behavior). -/
def setChild [LinearOrder E] : Children E V → E → Node E V → Children E V
  | .nil, c, n => .cons c n .nil
  | .cons c' n' rest, c, n =>
    if c < c' then .cons c n (.cons c' n' rest)
    else if c = c' then .cons c n rest
    else .cons c' n' (setChild rest c n)

/-- Overwrite in place the first entry stored under symbol `c` (models mutating
the mapped node through `it->second` after `children.find(c)` succeeded).
Never inserts a new entry. -/
def replaceChild [DecidableEq E] : Children E V → E → Node E V → Children E V
  | .nil, _, _ => .nil
  | .cons c' n' rest, c, n =>
    if c' = c then .cons c' n rest else .cons c' n' (replaceChild rest c n)

/-- `children.erase(it)` for the iterator found by `children.find(c)`:
remove the first entry stored under symbol `c`. -/
def removeChild [DecidableEq E] : Children E V → E → Children E V
  | .nil, _ => .nil
  | .cons c' n' rest, c =>
    if c' = c then rest else .cons c' n' (removeChild rest c)

/-- `Trie::insert(key, value)`: walk the path for `key`, creating missing
nodes, and overwrite the value at the terminal node. -/
def insert [LinearOrder E] : Node E V → List E → V → Node E V
  | .mk _ ch, [], v => .mk (some v) ch
  | .mk val ch, c :: cs, v =>
    let child := (findChild ch c).getD emptyNode
    .mk val (setChild ch c (insert child cs v))

/-- `Trie::prefix(key)`: true iff a path exists for every symbol of `key`. -/
def isPath [DecidableEq E] : Node E V → List E → Bool
  | _, [] => true
  | .mk _ ch, c :: cs =>
    match findChild ch c with
    | some child => isPath child cs
    | none => false

/-- `Trie::match(key)`: true iff the path exists and the terminal node holds a
value. -/
def matchKey [DecidableEq E] : Node E V → List E → Bool
  | .mk val _, [] => val.isSome
  | .mk _ ch, c :: cs =>
    match findChild ch c with
    | some child => matchKey child cs
    | none => false

/-- `Trie::get(key)`: the value at the terminal node of `key`, if the path
exists and the value is present (`nullptr` is modelled as `none`). -/
def get? [DecidableEq E] : Node E V → List E → Option V
  | .mk val _, [] => val
  | .mk _ ch, c :: cs =>
    match findChild ch c with
    | some child => get? child cs
    | none => none

/-- The recursive `remove` lambda inside `Trie::erase`: returns whether a value
was removed, paired with the updated node.  At the terminal node the value is
cleared iff present; on the way back up, a child that reported a removal and is
now valueless and childless is detached from its parent's map. -/
def eraseAux [LinearOrder E] : Node E V → List E → Bool × Node E V
  | .mk val ch, [] => (val.isSome, .mk none ch)
  | .mk val ch, c :: cs =>
    match findChild ch c with
    | none => (false, .mk val ch)
    | some child =>
      match eraseAux child cs with
      | (removed, child2) =>
        if removed && child2.value.isNone && child2.children.isNil then
          (true, .mk val (removeChild ch c))
        else
          (removed, .mk val (replaceChild ch c child2))

/-- `Trie::operator[](key)`: walk the path for `key`, creating missing nodes as
`insert` does but assigning no value; returns the updated trie together with
the contents of the terminal node's value slot (the slot the C++ code
dereferences with `*curr->value`). -/
def bracket [LinearOrder E] : Node E V → List E → Node E V × Option V
  | .mk val ch, [] => (.mk val ch, val)
  | .mk val ch, c :: cs =>
    match bracket ((findChild ch c).getD emptyNode) cs with
    | (sub, slot) => (.mk val (setChild ch c sub), slot)

mutual

/-- `Trie::clone`: recursive deep duplication of a node graph, value by value.
The source's recursion is written `copy->children[c] = CloneNode(child.get())`,
where no `CloneNode` exists in the repository; `clone` itself is the only
candidate, so the recursive call is embedded as `clone` (see the claim about
copying for the consequences of that slip). -/
def cloneNode : Node E V → Node E V
  | .mk val ch => .mk val (cloneChildren ch)

/-- Deep duplication of a children map (the loop body of `Trie::clone`). -/
def cloneChildren : Children E V → Children E V
  | .nil => .nil
  | .cons c n rest => .cons c (cloneNode n) (cloneChildren rest)

end

/-- `c` is strictly below the first key of the map (vacuously true of the empty
map). -/
def ltHead [LinearOrder E] (c : E) : Children E V → Bool
  | .nil => true
  | .cons c' _ _ => decide (c < c')

mutual

/-- Well-formedness of a node: every children map in the subtree lists its keys
in strictly increasing order — the invariant `std::map` maintains by type. -/
def wfN [LinearOrder E] : Node E V → Bool
  | .mk _ ch => wfC ch

/-- Well-formedness of a children map: strictly sorted keys, well-formed
child nodes. -/
def wfC [LinearOrder E] : Children E V → Bool
  | .nil => true
  | .cons c n rest => wfN n && ltHead c rest && wfC rest

end

/-- A node is meaningful iff it carries a value or has at least one child. -/
def meaningful : Node E V → Bool
  | .mk val ch => val.isSome || !ch.isNil

mutual

/-- Structural minimality below a node: every strict descendant is meaningful
(the node itself — in particular the root — is exempt). -/
def minN : Node E V → Bool
  | .mk _ ch => minC ch

/-- Structural minimality of a children map: each child is meaningful and
minimal below. -/
def minC : Children E V → Bool
  | .nil => true
  | .cons _ n rest => meaningful n && minN n && minC rest

end

/-- The whitespace prefix of a continuation line in `to_string`: `anchor`
spaces, with a vertical bar at every open branch column strictly left of the
anchor (`prefix[bar] = '|'` only for `bar < anchor`). -/
def barPad (anchor : Nat) (rel : List Nat) : String :=
  String.mk ((List.range anchor).map fun i => if i ∈ rel then '|' else ' ')

/-- Append text to the output line currently being built
(`lines.back().append(...)`); the head of the list is the current line. -/
def appendCur (s : String) : List String → List String
  | [] => [s]
  | cur :: rest => (cur ++ s) :: rest

mutual

/-- The recursive `partial` lambda inside `to_string`, with its state explicit:
`lines` holds the output lines in reverse (head = line being built), `rel` is
the open-branch-column stack (passed by value in the source), `tok` renders one
symbol (`ss << key`).  A valued node's token is wrapped in parentheses; a node
with several children pushes the current line length (the anchor column); the
first child continues the current line after a `-` connector, and the
remaining siblings are rendered by `renderSiblings`. -/
def renderNode (tok : E → String) : Node E V → E → List Nat → List String → List String
  | .mk val ch, key, rel, lines =>
    let lines1 := appendCur (if val.isSome then "(" ++ tok key ++ ")" else tok key) lines
    match ch with
    | .nil => lines1
    | .cons c0 n0 rest =>
      let anchor := (lines1.headD "").length
      let rel1 := if rest.isNil then rel else rel ++ [anchor]
      renderSiblings tok anchor rel1 rel rest
        (renderNode tok n0 c0 rel1 (appendCur "-" lines1))

/-- The non-first iterations of the child loop in the `partial` lambda: each
sibling starts a fresh line built from `barPad` and a backtick connector.
`rel` is the stack as pushed; `relPop` is the stack with this node's anchor
popped, and the source pops exactly when the loop reaches the last child —
before that child's line prefix is built and before recursing into it. -/
def renderSiblings (tok : E → String) (anchor : Nat) (rel relPop : List Nat) :
    Children E V → List String → List String
  | .nil, lines => lines
  | .cons c n rest, lines =>
    let relHere := if rest.isNil then relPop else rel
    renderSiblings tok anchor rel relPop rest
      (renderNode tok n c relHere ((barPad anchor relHere ++ "`-") :: lines))

end

/-- The top-level loop of `to_string`: each root child starts a fresh line and
is rendered with an empty open-branch stack. -/
def renderRoot (tok : E → String) : Children E V → List String → List String
  | .nil, lines => lines
  | .cons c n rest, lines => renderRoot tok rest (renderNode tok n c [] ("" :: lines))

/-- `pulse::to_string(trie)`: empty text for an empty trie, otherwise all
produced lines joined by `\n` with the trailing newline removed. -/
def render (tok : E → String) : Node E V → String
  | .mk _ ch =>
    match ch with
    | .nil => ""
    | .cons _ _ _ => String.intercalate "\n" (renderRoot tok ch []).reverse

mutual

/-- Modelled from the spec: the rendering algorithm of §4 with its open-branch
stack popped "after the last child of a multi-child node is rendered", so the
anchor stays on the stack while the last child's subtree is rendered.  Only the
sibling loop differs from `renderNode`. -/
def renderSpecNode (tok : E → String) : Node E V → E → List Nat → List String → List String
  | .mk val ch, key, rel, lines =>
    let lines1 := appendCur (if val.isSome then "(" ++ tok key ++ ")" else tok key) lines
    match ch with
    | .nil => lines1
    | .cons c0 n0 rest =>
      let anchor := (lines1.headD "").length
      let rel1 := if rest.isNil then rel else rel ++ [anchor]
      renderSpecSiblings tok anchor rel1 rest
        (renderSpecNode tok n0 c0 rel1 (appendCur "-" lines1))

/-- Modelled from the spec: sibling loop that keeps the node's anchor on the
open-branch stack until after the last child has been rendered. -/
def renderSpecSiblings (tok : E → String) (anchor : Nat) (rel : List Nat) :
    Children E V → List String → List String
  | .nil, lines => lines
  | .cons c n rest, lines =>
    renderSpecSiblings tok anchor rel rest
      (renderSpecNode tok n c rel ((barPad anchor rel ++ "`-") :: lines))

end

/-- Modelled from the spec: `to_string` with the spec's pop-after-last-child
bookkeeping. -/
def renderSpec (tok : E → String) : Node E V → String
  | .mk _ ch =>
    match ch with
    | .nil => ""
    | .cons _ _ _ => String.intercalate "\n" (renderSpecRoot tok ch []).reverse
where
  renderSpecRoot (tok : E → String) : Children E V → List String → List String
    | .nil, lines => lines
    | .cons c n rest, lines => renderSpecRoot tok rest (renderSpecNode tok n c [] ("" :: lines))

/-- One symbol rendered by `ss << key` for a character symbol. -/
def charTok (c : Char) : String := String.mk [c]

/-- The worked example of the spec (and of `trie_test.cc`): twelve insertions,
`alt` overwritten from 9 to 10. -/
def exampleTrie : Node Char Nat :=
  [("test", 1), ("tester", 2), ("testing", 3), ("tess", 4),
   ("alpha", 5), ("alphabet", 6), ("aloe", 7), ("altar", 8),
   ("alt", 9), ("alt", 10), ("world", 11), ("worm", 12)].foldl
    (fun t p => insert t p.1.toList p.2) emptyNode

/-- A smaller trie exercising a branch node inside the last child of another
branch node: keys `ab`, `acd`, `ace`. -/
def exampleTrie2 : Node Char Nat :=
  [("ab", 1), ("acd", 2), ("ace", 3)].foldl
    (fun t p => insert t p.1.toList p.2) emptyNode

/-- The spec's two-key example: `hel → 1`, `hello → 2`. -/
def helTrie : Node Char Nat :=
  insert (insert emptyNode "hel".toList 1) "hello".toList 2

/-- A mutating public operation of the container: `insert`, `erase`, or a
copy (`clone`, used by copy construction/assignment).  The queries
(`prefix`, `match`, `get`, rendering) take `const` receivers and cannot
change the tree, so they need no constructor here. -/
inductive Op (E V : Type) where
  | ins (k : List E) (v : V)
  | del (k : List E)
  | copy

/-- Apply one mutating operation to a trie. -/
def applyOp [LinearOrder E] : Node E V → Op E V → Node E V
  | t, .ins k v => insert t k v
  | t, .del k => (eraseAux t k).2
  | t, .copy => cloneNode t

/-- Apply a finite sequence of mutating operations, left to right. -/
def applyOps [LinearOrder E] : Node E V → List (Op E V) → Node E V
  | t, [] => t
  | t, op :: ops => applyOps (applyOp t op) ops

/-! ### Facts about the children maps -/

theorem find_set_self [LinearOrder E] : ∀ (l : Children E V) (c : E) (n : Node E V),
    findChild (setChild l c n) c = some n
  | .nil, c, n => by simp [setChild, findChild]
  | .cons a na rest, c, n => by
    simp only [setChild]
    by_cases h1 : c < a
    · simp [h1, findChild]
    · by_cases h2 : c = a
      · simp [h1, h2, findChild]
      · simp [h1, h2, findChild, Ne.symm h2, find_set_self rest c n]

theorem find_set_ne [LinearOrder E] : ∀ (l : Children E V) (c c' : E) (n : Node E V),
    c ≠ c' → findChild (setChild l c n) c' = findChild l c'
  | .nil, c, c', n, h => by simp [setChild, findChild, h]
  | .cons a na rest, c, c', n, h => by
    simp only [setChild]
    by_cases h1 : c < a
    · simp [h1, findChild, h]
    · by_cases h2 : c = a
      · subst h2
        simp [h1, findChild, h]
      · simp [h1, h2, findChild, find_set_ne rest c c' n h]

theorem find_replace_self [DecidableEq E] :
    ∀ (l : Children E V) (c : E) (x n : Node E V),
    findChild l c = some x → findChild (replaceChild l c n) c = some n
  | .nil, c, x, n, h => by simp [findChild] at h
  | .cons a na rest, c, x, n, h => by
    by_cases h1 : a = c
    · simp [replaceChild, findChild, h1]
    · simp only [findChild, if_neg h1] at h
      simp [replaceChild, findChild, h1, find_replace_self rest c x n h]

theorem find_replace_ne [DecidableEq E] :
    ∀ (l : Children E V) (c c' : E) (n : Node E V),
    c ≠ c' → findChild (replaceChild l c n) c' = findChild l c'
  | .nil, _, _, _, _ => rfl
  | .cons a na rest, c, c', n, h => by
    by_cases h1 : a = c
    · subst h1
      simp [replaceChild, findChild, h]
    · simp [replaceChild, findChild, h1, find_replace_ne rest c c' n h]

theorem replace_self [DecidableEq E] : ∀ (l : Children E V) (c : E) (x : Node E V),
    findChild l c = some x → replaceChild l c x = l
  | .nil, c, x, h => by simp [findChild] at h
  | .cons a na rest, c, x, h => by
    by_cases h1 : a = c
    · simp only [findChild, if_pos h1] at h
      injection h with h
      simp [replaceChild, h1, h]
    · simp only [findChild, if_neg h1] at h
      simp [replaceChild, h1, replace_self rest c x h]

theorem find_remove_ne [DecidableEq E] : ∀ (l : Children E V) (c c' : E),
    c ≠ c' → findChild (removeChild l c) c' = findChild l c'
  | .nil, _, _, _ => rfl
  | .cons a na rest, c, c', h => by
    by_cases h1 : a = c
    · subst h1
      simp [removeChild, findChild, h]
    · simp [removeChild, findChild, h1, find_remove_ne rest c c' h]

theorem ltHead_nil [LinearOrder E] (c : E) : ltHead (V := V) c .nil = true := rfl

theorem ltHead_cons [LinearOrder E] (c a : E) (n : Node E V) (rest : Children E V) :
    ltHead c (.cons a n rest) = decide (c < a) := rfl

theorem ltHead_trans [LinearOrder E] {l : Children E V} {b c : E}
    (hbc : b < c) (h : ltHead c l = true) : ltHead b l = true := by
  cases l with
  | nil => rfl
  | cons a na rest =>
    simp only [ltHead, decide_eq_true_eq] at h ⊢
    exact lt_trans hbc h

theorem find_none_of_lt [LinearOrder E] : ∀ (l : Children E V) (c : E),
    wfC l = true → ltHead c l = true → findChild l c = none
  | .nil, _, _, _ => rfl
  | .cons a na rest, c, hwf, hlt => by
    simp only [ltHead, decide_eq_true_eq] at hlt
    simp only [wfC, Bool.and_eq_true] at hwf
    simp [findChild, ne_of_gt hlt,
      find_none_of_lt rest c hwf.2 (ltHead_trans hlt hwf.1.2)]

theorem remove_find_none [LinearOrder E] : ∀ (l : Children E V) (c : E),
    wfC l = true → findChild (removeChild l c) c = none
  | .nil, _, _ => rfl
  | .cons a na rest, c, hwf => by
    simp only [wfC, Bool.and_eq_true] at hwf
    by_cases h1 : a = c
    · subst h1
      simp [removeChild, find_none_of_lt rest a hwf.2 hwf.1.2]
    · simp [removeChild, findChild, h1, remove_find_none rest c hwf.2]

theorem set_self [LinearOrder E] : ∀ (l : Children E V) (c : E) (x : Node E V),
    wfC l = true → findChild l c = some x → setChild l c x = l
  | .nil, c, x, _, h => by simp [findChild] at h
  | .cons a na rest, c, x, hwf, h => by
    simp only [wfC, Bool.and_eq_true] at hwf
    by_cases h1 : c < a
    · exfalso
      rw [findChild, if_neg (by exact fun hh => absurd hh (ne_of_gt h1)),
        find_none_of_lt rest c hwf.2 (ltHead_trans h1 hwf.1.2)] at h
      exact Option.noConfusion h
    · by_cases h2 : c = a
      · subst h2
        simp only [findChild, if_pos rfl] at h
        injection h with h
        simp [setChild, h1, h]
      · simp only [findChild, if_neg (Ne.symm h2)] at h
        simp [setChild, h1, h2, set_self rest c x hwf.2 h]

theorem ltHead_set [LinearOrder E] {l : Children E V} {b c : E} {n : Node E V}
    (h : ltHead b l = true) (hbc : b < c) : ltHead b (setChild l c n) = true := by
  cases l with
  | nil => simpa [setChild, ltHead_cons, ltHead_nil] using hbc
  | cons a na rest =>
    simp only [ltHead_cons, decide_eq_true_eq] at h
    by_cases h1 : c < a
    · simpa [setChild, h1, ltHead_cons] using hbc
    · by_cases h2 : c = a
      · simpa [setChild, h1, h2, ltHead_cons] using hbc
      · simpa [setChild, h1, h2, ltHead_cons] using h

theorem wf_set [LinearOrder E] : ∀ (l : Children E V) (c : E) (n : Node E V),
    wfC l = true → wfN n = true → wfC (setChild l c n) = true
  | .nil, c, n, _, hn => by simp [setChild, wfC, ltHead_nil, hn]
  | .cons a na rest, c, n, hwf, hn => by
    simp only [wfC, Bool.and_eq_true] at hwf
    obtain ⟨⟨hna, hlt⟩, hrest⟩ := hwf
    by_cases h1 : c < a
    · simp [setChild, h1, wfC, ltHead_cons, hn, hna, hlt, hrest]
    · by_cases h2 : c = a
      · subst h2
        simp [setChild, h1, wfC, hn, hlt, hrest]
      · have hac : a < c := lt_of_le_of_ne (not_lt.mp h1) (Ne.symm h2)
        simp [setChild, h1, h2, wfC, hna, ltHead_set hlt hac,
          wf_set rest c n hrest hn]

theorem ltHead_replace [LinearOrder E]
    (l : Children E V) (b c : E) (n : Node E V) :
    ltHead b (replaceChild l c n) = ltHead b l := by
  cases l with
  | nil => rfl
  | cons a na rest =>
    by_cases h1 : a = c <;> simp [replaceChild, h1, ltHead_cons]

theorem wf_replace [LinearOrder E] : ∀ (l : Children E V) (c : E) (n : Node E V),
    wfC l = true → wfN n = true → wfC (replaceChild l c n) = true
  | .nil, _, _, _, _ => rfl
  | .cons a na rest, c, n, hwf, hn => by
    simp only [wfC, Bool.and_eq_true] at hwf
    obtain ⟨⟨hna, hlt⟩, hrest⟩ := hwf
    by_cases h1 : a = c
    · subst h1
      simp [replaceChild, wfC, hn, hlt, hrest]
    · simp [replaceChild, h1, wfC, hna, ltHead_replace, hlt,
        wf_replace rest c n hrest hn]

theorem ltHead_remove [LinearOrder E] : ∀ (l : Children E V) (b c : E),
    wfC l = true → ltHead b l = true → ltHead b (removeChild l c) = true
  | .nil, _, _, _, _ => rfl
  | .cons a na rest, b, c, hwf, hlt => by
    simp only [wfC, Bool.and_eq_true] at hwf
    simp only [ltHead_cons, decide_eq_true_eq] at hlt
    by_cases h1 : a = c
    · subst h1
      simp only [removeChild, if_pos rfl]
      exact ltHead_trans hlt hwf.1.2
    · simpa [removeChild, h1, ltHead_cons] using hlt

theorem wf_remove [LinearOrder E] : ∀ (l : Children E V) (c : E),
    wfC l = true → wfC (removeChild l c) = true
  | .nil, _, _ => rfl
  | .cons a na rest, c, hwf => by
    simp only [wfC, Bool.and_eq_true] at hwf
    obtain ⟨⟨hna, hlt⟩, hrest⟩ := hwf
    by_cases h1 : a = c
    · simpa [removeChild, h1] using hrest
    · simp [removeChild, h1, wfC, hna,
        ltHead_remove rest a c hrest hlt, wf_remove rest c hrest]

theorem wf_find [LinearOrder E] : ∀ (l : Children E V) (c : E) (x : Node E V),
    wfC l = true → findChild l c = some x → wfN x = true
  | .nil, c, x, _, h => by simp [findChild] at h
  | .cons a na rest, c, x, hwf, h => by
    simp only [wfC, Bool.and_eq_true] at hwf
    by_cases h1 : a = c
    · simp only [findChild, if_pos h1] at h
      injection h with h
      exact h ▸ hwf.1.1
    · simp only [findChild, if_neg h1] at h
      exact wf_find rest c x hwf.2 h

/-! ### Facts about the queries -/

theorem matchKey_eq_isSome_get [DecidableEq E] : ∀ (t : Node E V) (k : List E),
    matchKey t k = (get? t k).isSome
  | .mk val ch, [] => by simp [matchKey, get?]
  | .mk val ch, c :: cs => by
    simp only [matchKey, get?]
    cases h : findChild ch c with
    | none => simp
    | some child => exact matchKey_eq_isSome_get child cs

theorem isPath_of_matchKey [DecidableEq E] : ∀ (t : Node E V) (k : List E),
    matchKey t k = true → isPath t k = true
  | .mk val ch, [], _ => by simp [isPath]
  | .mk val ch, c :: cs, h => by
    simp only [matchKey] at h
    simp only [isPath]
    cases hf : findChild ch c with
    | none => rw [hf] at h; exact Bool.noConfusion h
    | some child => rw [hf] at h; exact isPath_of_matchKey child cs h

theorem isPath_nil [DecidableEq E] (t : Node E V) : isPath t [] = true := by
  cases t with
  | mk val ch => rfl

theorem get_of_unmeaningful [DecidableEq E] : ∀ (n : Node E V) (k : List E),
    n.value.isNone = true → n.children.isNil = true → get? n k = none
  | .mk val ch, [], hv, _ => by
    cases val with
    | none => rfl
    | some v => exact Bool.noConfusion hv
  | .mk val ch, c :: cs, _, hc => by
    cases ch with
    | nil => simp [get?, findChild]
    | cons a na rest => exact Bool.noConfusion hc

/-! ### Insert: round trip -/

theorem get_insert_self [LinearOrder E] : ∀ (t : Node E V) (k : List E) (v : V),
    get? (insert t k v) k = some v
  | .mk val ch, [], v => by simp [insert, get?]
  | .mk val ch, c :: cs, v => by
    simp only [insert, get?, find_set_self]
    exact get_insert_self _ cs v

/-! ### Erase -/

theorem erase_fst [LinearOrder E] : ∀ (t : Node E V) (k : List E),
    (eraseAux t k).1 = matchKey t k
  | .mk val ch, [] => by simp [eraseAux, matchKey]
  | .mk val ch, c :: cs => by
    cases hf : findChild ch c with
    | none => simp [eraseAux, matchKey, hf]
    | some child =>
      simp only [eraseAux, matchKey, hf]
      split
      · next hcond =>
        simp only [Bool.and_eq_true] at hcond
        show true = matchKey child cs
        rw [← erase_fst child cs]
        exact (hcond.1.1).symm
      · show (eraseAux child cs).1 = matchKey child cs
        exact erase_fst child cs

theorem erase_noop [LinearOrder E] : ∀ (t : Node E V) (k : List E),
    (eraseAux t k).1 = false → (eraseAux t k).2 = t
  | .mk val ch, [], h => by
    simp only [eraseAux] at h ⊢
    cases val with
    | none => rfl
    | some v => exact Bool.noConfusion h
  | .mk val ch, c :: cs, h => by
    cases hf : findChild ch c with
    | none => simp [eraseAux, hf]
    | some child =>
      simp only [eraseAux, hf] at h ⊢
      split at h
      · next hcond => exact Bool.noConfusion h
      · next hcond =>
        rw [if_neg hcond]
        have h1 : (eraseAux child cs).1 = false := h
        have h2 : (eraseAux child cs).2 = child := erase_noop child cs h1
        show Node.mk val (replaceChild ch c (eraseAux child cs).2) = Node.mk val ch
        rw [h2, replace_self ch c child hf]

theorem erase_get_self [LinearOrder E] : ∀ (t : Node E V) (k : List E),
    wfN t = true → get? (eraseAux t k).2 k = none
  | .mk val ch, [], _ => by simp [eraseAux, get?]
  | .mk val ch, c :: cs, hwf => by
    have hwfc : wfC ch = true := hwf
    cases hf : findChild ch c with
    | none => simp [eraseAux, get?, hf]
    | some child =>
      have hwfchild : wfN child = true := wf_find ch c child hwfc hf
      have ih : get? (eraseAux child cs).2 cs = none := erase_get_self child cs hwfchild
      simp only [eraseAux, hf]
      split
      · simp [get?, remove_find_none ch c hwfc]
      · simp [get?, find_replace_self ch c child (eraseAux child cs).2 hf, ih]

theorem erase_get_other [LinearOrder E] : ∀ (t : Node E V) (k k' : List E),
    wfN t = true → k ≠ k' → get? (eraseAux t k).2 k' = get? t k'
  | .mk val ch, [], k', _, hne => by
    cases k' with
    | nil => exact absurd rfl hne
    | cons c' cs' => simp [eraseAux, get?]
  | .mk val ch, c :: cs, k', hwf, hne => by
    have hwfc : wfC ch = true := hwf
    cases k' with
    | nil =>
      cases hf : findChild ch c with
      | none => simp [eraseAux, hf, get?]
      | some child =>
        simp only [eraseAux, hf]
        split
        · simp [get?]
        · simp [get?]
    | cons c' cs' =>
      by_cases hcc : c = c'
      · subst hcc
        have hcs : cs ≠ cs' := fun hh => hne (hh ▸ rfl)
        cases hf : findChild ch c with
        | none => simp [eraseAux, hf]
        | some child =>
          have hwfchild : wfN child = true := wf_find ch c child hwfc hf
          have ih : get? (eraseAux child cs).2 cs' = get? child cs' :=
            erase_get_other child cs cs' hwfchild hcs
          simp only [eraseAux, hf]
          split
          · next hcond =>
            simp only [Bool.and_eq_true] at hcond
            have hempty : get? (eraseAux child cs).2 cs' = none :=
              get_of_unmeaningful _ cs' hcond.1.2 hcond.2
            simp [get?, remove_find_none ch c hwfc, hf, ← ih, hempty]
          · simp [get?, find_replace_self ch c child (eraseAux child cs).2 hf, hf, ih]
      · cases hf : findChild ch c with
        | none => simp [eraseAux, hf]
        | some child =>
          simp only [eraseAux, hf]
          split
          · simp [get?, find_remove_ne ch c c' hcc]
          · simp [get?, find_replace_ne ch c c' (eraseAux child cs).2 hcc]

/-! ### Indexed access -/

theorem bracket_of_matchKey [LinearOrder E] : ∀ (t : Node E V) (k : List E),
    wfN t = true → matchKey t k = true →
    (bracket t k).1 = t ∧ (bracket t k).2 = get? t k
  | .mk val ch, [], _, _ => ⟨rfl, rfl⟩
  | .mk val ch, c :: cs, hwf, hm => by
    have hwfc : wfC ch = true := hwf
    simp only [matchKey] at hm
    cases hf : findChild ch c with
    | none => rw [hf] at hm; exact Bool.noConfusion hm
    | some child =>
      rw [hf] at hm
      have hwfchild : wfN child = true := wf_find ch c child hwfc hf
      obtain ⟨ih1, ih2⟩ := bracket_of_matchKey child cs hwfchild hm
      constructor
      · show Node.mk val (setChild ch c (bracket ((findChild ch c).getD emptyNode) cs).1) =
          Node.mk val ch
        rw [hf]
        show Node.mk val (setChild ch c (bracket child cs).1) = Node.mk val ch
        rw [ih1, set_self ch c child hwfc hf]
      · show (bracket ((findChild ch c).getD emptyNode) cs).2 = get? (Node.mk val ch) (c :: cs)
        rw [hf]
        show (bracket child cs).2 = get? (Node.mk val ch) (c :: cs)
        rw [ih2]
        simp [get?, hf]

/-! ### Structural minimality -/

theorem min_find [DecidableEq E] : ∀ (l : Children E V) (c : E) (x : Node E V),
    minC l = true → findChild l c = some x → meaningful x = true ∧ minN x = true
  | .nil, c, x, _, h => by simp [findChild] at h
  | .cons a na rest, c, x, hm, h => by
    simp only [minC, Bool.and_eq_true] at hm
    by_cases h1 : a = c
    · simp only [findChild, if_pos h1] at h
      injection h with h
      exact ⟨h ▸ hm.1.1, h ▸ hm.1.2⟩
    · simp only [findChild, if_neg h1] at h
      exact min_find rest c x hm.2 h

theorem min_set [LinearOrder E] : ∀ (l : Children E V) (c : E) (n : Node E V),
    minC l = true → meaningful n = true → minN n = true → minC (setChild l c n) = true
  | .nil, c, n, _, hmean, hmin => by simp [setChild, minC, hmean, hmin]
  | .cons a na rest, c, n, hm, hmean, hmin => by
    simp only [minC, Bool.and_eq_true] at hm
    obtain ⟨⟨hma, hna⟩, hrest⟩ := hm
    by_cases h1 : c < a
    · simp [setChild, h1, minC, hmean, hmin, hma, hna, hrest]
    · by_cases h2 : c = a
      · subst h2
        simp [setChild, h1, minC, hmean, hmin, hrest]
      · simp [setChild, h1, h2, minC, hma, hna,
          min_set rest c n hrest hmean hmin]

theorem min_replace [DecidableEq E] : ∀ (l : Children E V) (c : E) (n : Node E V),
    minC l = true → meaningful n = true → minN n = true → minC (replaceChild l c n) = true
  | .nil, _, _, _, _, _ => rfl
  | .cons a na rest, c, n, hm, hmean, hmin => by
    simp only [minC, Bool.and_eq_true] at hm
    obtain ⟨⟨hma, hna⟩, hrest⟩ := hm
    by_cases h1 : a = c
    · simp [replaceChild, h1, minC, hmean, hmin, hrest]
    · simp [replaceChild, h1, minC, hma, hna,
        min_replace rest c n hrest hmean hmin]

theorem min_remove [DecidableEq E] : ∀ (l : Children E V) (c : E),
    minC l = true → minC (removeChild l c) = true
  | .nil, _, _ => rfl
  | .cons a na rest, c, hm => by
    simp only [minC, Bool.and_eq_true] at hm
    obtain ⟨⟨hma, hna⟩, hrest⟩ := hm
    by_cases h1 : a = c
    · simpa [removeChild, h1] using hrest
    · simp [removeChild, h1, minC, hma, hna, min_remove rest c hrest]

theorem set_not_nil [LinearOrder E] (l : Children E V) (c : E) (n : Node E V) :
    (setChild l c n).isNil = false := by
  cases l with
  | nil => rfl
  | cons a na rest =>
    by_cases h1 : c < a
    · simp [setChild, h1, Children.isNil]
    · by_cases h2 : c = a <;> simp [setChild, h1, h2, Children.isNil]

theorem insert_meaningful [LinearOrder E] : ∀ (t : Node E V) (k : List E) (v : V),
    meaningful (insert t k v) = true
  | .mk val ch, [], v => by simp [insert, meaningful]
  | .mk val ch, c :: cs, v => by
    simp [insert, meaningful, set_not_nil]

theorem min_insert [LinearOrder E] : ∀ (t : Node E V) (k : List E) (v : V),
    minN t = true → minN (insert t k v) = true
  | .mk val ch, [], v, hm => hm
  | .mk val ch, c :: cs, v, hm => by
    have hmc : minC ch = true := hm
    cases hf : findChild ch c with
    | none =>
      show minN (Node.mk val (setChild ch c (insert ((findChild ch c).getD emptyNode) cs v))) = true
      rw [hf]
      show minC (setChild ch c (insert emptyNode cs v)) = true
      exact min_set ch c _ hmc (insert_meaningful _ cs v)
        (min_insert emptyNode cs v rfl)
    | some child =>
      show minN (Node.mk val (setChild ch c (insert ((findChild ch c).getD emptyNode) cs v))) = true
      rw [hf]
      show minC (setChild ch c (insert child cs v)) = true
      exact min_set ch c _ hmc (insert_meaningful _ cs v)
        (min_insert child cs v (min_find ch c child hmc hf).2)

theorem min_erase [LinearOrder E] : ∀ (t : Node E V) (k : List E),
    minN t = true → minN (eraseAux t k).2 = true
  | .mk val ch, [], hm => hm
  | .mk val ch, c :: cs, hm => by
    have hmc : minC ch = true := hm
    cases hf : findChild ch c with
    | none => simpa [eraseAux, hf] using hm
    | some child =>
      obtain ⟨hmean, hmin⟩ := min_find ch c child hmc hf
      have ih : minN (eraseAux child cs).2 = true := min_erase child cs hmin
      simp only [eraseAux, hf]
      split
      · next hcond =>
        show minC (removeChild ch c) = true
        exact min_remove ch c hmc
      · next hcond =>
        show minC (replaceChild ch c (eraseAux child cs).2) = true
        refine min_replace ch c _ hmc ?_ ih
        rcases hrem : (eraseAux child cs).1 with _ | _
        · rw [erase_noop child cs hrem]
          exact hmean
        · rw [hrem] at hcond
          rcases h2 : (eraseAux child cs).2 with ⟨v2, ch2⟩
          rw [h2] at hcond
          simp only [Node.value, Node.children, Bool.true_and] at hcond
          simp only [meaningful, Bool.or_eq_true, Bool.not_eq_true']
          cases hv : v2.isNone with
          | false =>
            left
            cases v2 with
            | none => exact Bool.noConfusion hv
            | some _ => rfl
          | true =>
            right
            rw [hv, Bool.true_and] at hcond
            simpa using hcond

/-! ### Clone -/

mutual

theorem cloneNode_eq : ∀ (t : Node E V), cloneNode t = t
  | .mk val ch => by rw [cloneNode, cloneChildren_eq ch]

theorem cloneChildren_eq : ∀ (l : Children E V), cloneChildren l = l
  | .nil => rfl
  | .cons c n rest => by rw [cloneChildren, cloneNode_eq n, cloneChildren_eq rest]

end

theorem min_applyOp [LinearOrder E] (t : Node E V) (op : Op E V)
    (h : minN t = true) : minN (applyOp t op) = true := by
  cases op with
  | ins k v => exact min_insert t k v h
  | del k => exact min_erase t k h
  | copy =>
    show minN (cloneNode t) = true
    rw [cloneNode_eq t]
    exact h

theorem min_applyOps_aux [LinearOrder E] : ∀ (ops : List (Op E V)) (t : Node E V),
    minN t = true → minN (applyOps t ops) = true
  | [], _, h => h
  | op :: ops, t, h => min_applyOps_aux ops (applyOp t op) (min_applyOp t op h)

/-! ### The claims -/

/-- C1: Insert/lookup round trip — for every trie `t`, key `k`, and value `v`,
after `insert t k v` the query `match` answers true at `k` and `get` yields
exactly `v` at `k`. -/
theorem claim_C1_insert_roundtrip [LinearOrder E] (t : Node E V) (k : List E) (v : V) :
    matchKey (insert t k v) k = true ∧ get? (insert t k v) k = some v := by
  have hg := get_insert_self t k v
  exact ⟨by rw [matchKey_eq_isSome_get, hg]; rfl, hg⟩

/-- C2: Erase correctness and no-op atomicity — on any well-formed trie,
`erase` returns exactly whether `match` held at `k`; when no value is stored at
`k` the tree is returned structurally unchanged; and after `erase` the key `k`
no longer matches and `get` at `k` is absent. -/
theorem claim_C2_erase_correct [LinearOrder E] (t : Node E V) (k : List E)
    (hwf : wfN t = true) :
    (eraseAux t k).1 = matchKey t k
    ∧ (matchKey t k = false → (eraseAux t k).2 = t)
    ∧ matchKey (eraseAux t k).2 k = false
    ∧ get? (eraseAux t k).2 k = none := by
  refine ⟨erase_fst t k, ?_, ?_, erase_get_self t k hwf⟩
  · intro hm
    exact erase_noop t k ((erase_fst t k).trans hm)
  · rw [matchKey_eq_isSome_get, erase_get_self t k hwf]
    rfl

/-- Witness for C2: erasing the never-inserted key `help` from the trie holding
`hel` and `hello` is a no-op, and afterward `get` at `help` is absent. -/
theorem claim_C2_witness :
    (eraseAux helTrie "help".toList).2 = helTrie
    ∧ get? (eraseAux helTrie "help".toList).2 "help".toList = none := by
  have h := claim_C2_erase_correct helTrie "help".toList (by decide)
  exact ⟨h.2.1 (by decide), h.2.2.2⟩

/-- C3: Erase non-interference — for distinct keys `k` and `k'` both holding
stored values in a well-formed trie, erasing `k` leaves `get` at `k'`
unchanged, and `k'` still matches and is still a valid prefix afterwards. -/
theorem claim_C3_erase_noninterference [LinearOrder E] (t : Node E V) (k k' : List E)
    (hwf : wfN t = true) (hne : k ≠ k')
    (hk : matchKey t k = true) (hk' : matchKey t k' = true) :
    get? (eraseAux t k).2 k' = get? t k'
    ∧ matchKey (eraseAux t k).2 k' = true
    ∧ isPath (eraseAux t k).2 k' = true := by
  have hg := erase_get_other t k k' hwf hne
  have hm : matchKey (eraseAux t k).2 k' = true := by
    rw [matchKey_eq_isSome_get, hg, ← matchKey_eq_isSome_get]
    exact hk'
  exact ⟨hg, hm, isPath_of_matchKey _ k' hm⟩

/-- Witness for C3: the spec's example — insert `hel` and `hello`, erase
`hello`; the key `hel` keeps its value, still matches, and is still a valid
prefix. -/
theorem claim_C3_witness :
    get? (eraseAux helTrie "hello".toList).2 "hel".toList = get? helTrie "hel".toList
    ∧ matchKey (eraseAux helTrie "hello".toList).2 "hel".toList = true
    ∧ isPath (eraseAux helTrie "hello".toList).2 "hel".toList = true :=
  claim_C3_erase_noninterference helTrie "hello".toList "hel".toList
    (by decide) (by decide) (by decide) (by decide)

/-- C4 counterexample: the claim quantifies over sequences that include
indexed access; a single `operator[]` on the unstored key `a` of the empty
trie creates a terminal node with neither a value nor children, violating
structural minimality. -/
theorem claim_C4_counterexample :
    minN ((bracket (emptyNode : Node Char Nat) ['a']).1) = false := by decide

/-- C4 (amended): after any finite sequence of `insert`, `erase`, and
copy operations starting from the empty trie, every non-root node carries a
value or has at least one child.  (The original claim also admitted indexed
access `operator[]`, which the counterexample shows can create a node with
neither; the queries are non-mutating `const` operations and cannot change
the tree.) -/
theorem claim_C4_minimality [LinearOrder E] (ops : List (Op E V)) :
    minN (applyOps (emptyNode : Node E V) ops) = true :=
  min_applyOps_aux ops emptyNode rfl

/-- C5: Rendering worked example — inserting
`test→1, tester→2, testing→3, tess→4, alpha→5, alphabet→6, aloe→7, altar→8,
alt→9` (overwritten to 10), `world→11, worm→12` into the empty trie renders
to exactly the spec's eight lines joined by newlines with no trailing
newline. -/
theorem claim_C5_render_example :
    render charTok exampleTrie =
      "a-l-o-(e)\n   `-p-h-(a)-b-e-(t)\n   `-(t)-a-(r)\nt-e-s-(s)\n     `-(t)-e-(r)\n          `-i-n-(g)\nw-o-r-l-(d)\n     `-(m)" := by
  decide

/-- C6 counterexample: the source pops a branch node's anchor column when the
last child's line begins, not after the last child has been rendered; already
on the three-key trie `ab, acd, ace` the source rendering differs from the
rendering that follows the spec's pop-after-last-child rule. -/
theorem claim_C6_counterexample :
    render charTok exampleTrie2 ≠ renderSpec charTok exampleTrie2 := by decide

/-- C6 (amended): the anchor column of a multi-child node is popped when the
last child's line begins — before the last child's subtree is rendered — so
rows inside the last child's subtree do not carry that node's bar (each
non-first child's line still carries a bar at every open ancestor column
strictly left of its anchor).  On the trie `ab, acd, ace` the row of `(e)`,
which lies inside the last child `c`'s subtree, shows a space at the root
branch column 1, whereas the spec's pop-after rule would put a bar there. -/
theorem claim_C6_pop_before_last :
    render charTok exampleTrie2 = "a-(b)\n `-c-(d)\n    `-(e)"
    ∧ renderSpec charTok exampleTrie2 = "a-(b)\n `-c-(d)\n |  `-(e)" :=
  ⟨by decide, by decide⟩

/-- C7: deep copy as the source intends it (`clone` with its recursive call
read as `clone` itself, the only candidate for the undefined name
`CloneNode`) reproduces the node graph exactly, so every query on a copy
agrees with the original and self-assignment preserves contents.  The copy
operations cannot be instantiated as written in the source: the copy
constructor passes the whole `Trie` to `clone`, which takes a node pointer,
and `clone` recurses through the nonexistent `CloneNode`. -/
theorem claim_C7_clone_eq (t : Node E V) : cloneNode t = t :=
  cloneNode_eq t

/-- C8: Empty-key handling — the empty key is a valid prefix of every trie,
and after inserting the empty key into the empty trie, the empty key both
matches and is a valid prefix. -/
theorem claim_C8_empty_key [LinearOrder E] (t : Node E V) (v : V) :
    isPath t [] = true
    ∧ matchKey (insert (emptyNode : Node E V) [] v) [] = true
    ∧ isPath (insert (emptyNode : Node E V) [] v) [] = true := by
  refine ⟨isPath_nil t, ?_, isPath_nil _⟩
  simp [insert, emptyNode, matchKey]

/-- C9: Indexed-access safety under its precondition — on a well-formed trie,
if `match` holds at `k` then `operator[]` leaves the tree unchanged and its
returned slot is exactly the stored value, in particular populated, so the
`*curr->value` dereference is safe; nothing is claimed when no value is
stored. -/
theorem claim_C9_indexed_access [LinearOrder E] (t : Node E V) (k : List E)
    (hwf : wfN t = true) (hm : matchKey t k = true) :
    (bracket t k).1 = t ∧ (bracket t k).2 = get? t k
    ∧ ((bracket t k).2).isSome = true := by
  obtain ⟨h1, h2⟩ := bracket_of_matchKey t k hwf hm
  refine ⟨h1, h2, ?_⟩
  rw [h2, ← matchKey_eq_isSome_get]
  exact hm

/-- Witness for C9: indexed access at the stored key `hel` of the `hel`/`hello`
trie returns the populated slot and leaves the tree unchanged. -/
theorem claim_C9_witness :
    (bracket helTrie "hel".toList).1 = helTrie
    ∧ (bracket helTrie "hel".toList).2 = get? helTrie "hel".toList
    ∧ ((bracket helTrie "hel".toList).2).isSome = true :=
  claim_C9_indexed_access helTrie "hel".toList (by decide) (by decide)

/-- C10: match/get agreement — for every trie and key, `match` answers true
exactly when `get` returns a present result. -/
theorem claim_C10_match_get_agree [DecidableEq E] (t : Node E V) (k : List E) :
    matchKey t k = (get? t k).isSome :=
  matchKey_eq_isSome_get t k

end pulse
